import Mathlib

/-!
Verification of the 3D puzzle solver repository.

The visible source is the React frontend (`frontend/src`): piece types,
the square-piece editor, and the 3D viewers.  Those parts are embedded
directly from the TypeScript source.  The assembly-solver core (piece
descriptors, compatibility evaluator, the three search strategies and the
solve-job controller) is described by the specification but its code is
not in the repository; those parts are modelled from the spec and are
marked as such in their doc comments.
-/

/-! ## Square-piece editor (from `components/SquarePieceEditor`) -/

/-- A notch pattern is an ordered sequence of booleans:
`true` = present (material), `false` = notched (cut out).
The TypeScript type fixes the length to 6; lengths are tracked by
theorems rather than by the type. -/
abbrev NotchPattern := List Bool

/-- The four per-side notch patterns of a square piece
(TypeScript interface `SquarePieceNotches`). -/
structure SquarePieceNotches where
  top : NotchPattern
  right : NotchPattern
  bottom : NotchPattern
  left : NotchPattern
deriving DecidableEq

/-- The four sides of a square piece. -/
inductive Side where
  | top
  | right
  | bottom
  | left
deriving DecidableEq

/-- Read one side's pattern. -/
def getSide (n : SquarePieceNotches) : Side → NotchPattern
  | .top => n.top
  | .right => n.right
  | .bottom => n.bottom
  | .left => n.left

/-- Replace one side's pattern. -/
def setSide (n : SquarePieceNotches) : Side → NotchPattern → SquarePieceNotches
  | .top, p => { n with top := p }
  | .right, p => { n with right := p }
  | .bottom, p => { n with bottom := p }
  | .left, p => { n with left := p }

/-- `validateNotches` from the editor: each side must have at least one
notch position present (`true`). -/
def validateNotches (pattern : NotchPattern) : Bool :=
  pattern.any (fun present => present)

/-- `isValidPiece` from the editor: every one of the four side patterns
passes `validateNotches`. -/
def isValidPiece (n : SquarePieceNotches) : Bool :=
  validateNotches n.top && validateNotches n.right &&
  validateNotches n.bottom && validateNotches n.left

/-- `toggleNotch` from the editor: flip one position of one side's
pattern, but refuse the change when it would leave that side with no
present position. -/
def toggleNotch (n : SquarePieceNotches) (side : Side) (index : Nat) :
    SquarePieceNotches :=
  let pattern := getSide n side
  let newPattern := pattern.set index (!(pattern.getD index false))
  if newPattern.all (fun present => !present) then n
  else setSide n side newPattern

/-- The editor's initial pattern for each side when creating a new piece. -/
def defaultSidePattern : NotchPattern := [true, false, true, true, false, true]

/-- The editor's initial state for a new piece. -/
def defaultNotches : SquarePieceNotches :=
  ⟨defaultSidePattern, defaultSidePattern, defaultSidePattern, defaultSidePattern⟩

/-- The record the editor's save callback emits. -/
structure SavedPiece where
  id : String
  notches : SquarePieceNotches
  size : ℚ
deriving DecidableEq

/-- `handleSave` from the editor: saving bails out when the piece is
invalid, otherwise emits the piece with the standard size 100. -/
def handleSave (pieceId : String) (n : SquarePieceNotches) : Option SavedPiece :=
  if isValidPiece n then some ⟨pieceId, n, 100⟩ else none

/-! ## Frontend piece type and square-piece 3D viewer
(from `types/puzzle.ts` and `components/SquarePieceViewer3D`) -/

/-- The frontend `PuzzlePiece`: the square-piece fields `notches` and
`size` are optional, as are the legacy image-based fields. -/
structure PuzzlePiece where
  id : String
  notches : Option SquarePieceNotches
  size : Option ℚ
  colorProfile : List ℚ
deriving DecidableEq

/-- One red notch box the renderer emits for a notched (absent) position:
its index and its offset `(index - 2.5) * notchWidth` along the side. -/
structure NotchBox where
  index : Nat
  offset : ℚ
deriving DecidableEq

/-- `renderNotchesOnSide` from the viewer: walk the pattern and emit a
box for every notched (`false`) position, nothing for present ones. -/
def notchBoxesAux (notchWidth : ℚ) : Nat → NotchPattern → List NotchBox
  | _, [] => []
  | i, present :: rest =>
    if present then notchBoxesAux notchWidth (i + 1) rest
    else ⟨i, ((i : ℚ) - 5/2) * notchWidth⟩ :: notchBoxesAux notchWidth (i + 1) rest

/-- The geometry `SquarePiece3D` produces: scaled body plus the notch
boxes of all four sides. -/
structure SquareGeometry where
  bodySize : ℚ
  notchDepth : ℚ
  topBoxes : List NotchBox
  rightBoxes : List NotchBox
  bottomBoxes : List NotchBox
  leftBoxes : List NotchBox
deriving DecidableEq

/-- `SquarePiece3D` from the viewer: a piece lacking `notches` or `size`
renders nothing (in JavaScript `!piece.size` is also true for size 0);
otherwise the body is `size / 100` and notch depth/width are a sixth of
that. -/
def squarePiece3D (piece : PuzzlePiece) : Option SquareGeometry :=
  match piece.notches, piece.size with
  | some n, some sz =>
    if sz = 0 then none
    else
      let size := sz / 100
      let notchDepth := size / 6
      let notchWidth := size / 6
      some ⟨size, notchDepth,
        notchBoxesAux notchWidth 0 n.top,
        notchBoxesAux notchWidth 0 n.right,
        notchBoxesAux notchWidth 0 n.bottom,
        notchBoxesAux notchWidth 0 n.left⟩
  | _, _ => none

/-- What the square-piece viewer shows: either the empty-state message or
a canvas with one rendered entry per displayed piece. -/
inductive ViewerOutput where
  | emptyState
  | canvas (rendered : List (String × Option SquareGeometry))
deriving DecidableEq

/-- `SquarePieceViewer3D` from the viewer: filter the input pieces to
those carrying a `notches` field; show the empty-state message when that
subset is empty, otherwise render exactly that subset. -/
def squarePieceViewer3D (pieces : List PuzzlePiece) : ViewerOutput :=
  let squarePieces := pieces.filter (fun piece => piece.notches.isSome)
  if squarePieces.length = 0 then ViewerOutput.emptyState
  else ViewerOutput.canvas (squarePieces.map (fun piece => (piece.id, squarePiece3D piece)))

/-! ## Piece descriptor construction (solver side)

The solver backend is not part of the repository; its piece constructor
is modelled from the spec. -/

/-- The spec's error taxonomy (§7). -/
inductive SolverError where
  | invalidPiece
  | invalidConfiguration
  | alreadyRunning
  | notRunning
  | notFound
  | solverInternalError
deriving DecidableEq

/-- Shape features of a piece descriptor (§3). -/
structure ShapeFeatures where
  area : ℚ
  perimeter : ℚ
  complexity : ℚ
  cornerCount : Nat
deriving DecidableEq

/-- The solver's immutable piece record (§3).  The optional
`connectivity` reuses the frontend's four-sided notch record. -/
structure PieceDescriptor where
  id : String
  dimensions : ℚ × ℚ × ℚ
  colorProfile : List ℚ
  shapeFeatures : ShapeFeatures
  connectivity : Option SquarePieceNotches
deriving DecidableEq

/-- All three dimension extents are positive. -/
def dimensionsPositive (d : ℚ × ℚ × ℚ) : Bool :=
  decide (0 < d.1) && decide (0 < d.2.1) && decide (0 < d.2.2)

/-- Modelled from the spec: the `PieceDescriptor` constructor is absent
from the repository (the solver backend is not included); per §3 and §7
it rejects with `InvalidPiece` a descriptor with a non-positive dimension
or with an edge pattern containing no `present` entry. -/
def mkPieceDescriptor (pieceId : String) (dims : ℚ × ℚ × ℚ)
    (colorProfile : List ℚ) (sf : ShapeFeatures)
    (conn : Option SquarePieceNotches) : Except SolverError PieceDescriptor :=
  if !dimensionsPositive dims then .error .invalidPiece
  else
    match conn with
    | some c =>
      if isValidPiece c then .ok ⟨pieceId, dims, colorProfile, sf, some c⟩
      else .error .invalidPiece
    | none => .ok ⟨pieceId, dims, colorProfile, sf, none⟩

/-! ## Helper lemmas about patterns and sides -/

theorem validateNotches_eq_not_all (p : NotchPattern) :
    validateNotches p = !(p.all (fun b => !b)) := by
  induction p with
  | nil => rfl
  | cons a l ih =>
    cases a <;> (simp [validateNotches, List.any_cons, List.all_cons] at ih ⊢; try exact ih)

theorem isValidPiece_eq_true_iff (n : SquarePieceNotches) :
    isValidPiece n = true ↔
      validateNotches n.top = true ∧ validateNotches n.right = true
      ∧ validateNotches n.bottom = true ∧ validateNotches n.left = true := by
  simp [isValidPiece, Bool.and_eq_true, and_assoc]

theorem getSide_setSide_same (n : SquarePieceNotches) (s : Side) (p : NotchPattern) :
    getSide (setSide n s p) s = p := by
  cases s <;> rfl

theorem getSide_setSide_ne (n : SquarePieceNotches) (s s' : Side) (p : NotchPattern)
    (h : s' ≠ s) : getSide (setSide n s p) s' = getSide n s' := by
  cases s <;> cases s' <;> first
    | exact absurd rfl h
    | rfl

theorem getD_set_self : ∀ (l : List Bool) (i : Nat) (a d : Bool),
    i < l.length → (l.set i a).getD i d = a
  | [], i, _, _, h => absurd h (by simp)
  | _ :: _, 0, _, _, _ => rfl
  | _ :: l, i + 1, a, d, h => getD_set_self l i a d (Nat.lt_of_succ_lt_succ h)

theorem getD_set_ne : ∀ (l : List Bool) (i j : Nat) (a d : Bool),
    j ≠ i → (l.set i a).getD j d = l.getD j d
  | [], _, _, _, _, _ => rfl
  | _ :: _, 0, 0, _, _, h => absurd rfl h
  | _ :: _, 0, _ + 1, _, _, _ => rfl
  | _ :: _, _ + 1, 0, _, _, _ => rfl
  | _ :: l, i + 1, j + 1, a, d, h =>
    getD_set_ne l i j a d (fun e => h (by rw [e]))

/-- Unfolding equation for `toggleNotch`. -/
theorem toggleNotch_def (n : SquarePieceNotches) (side : Side) (index : Nat) :
    toggleNotch n side index =
      if ((getSide n side).set index (!((getSide n side).getD index false))).all
          (fun present => !present) then n
      else setSide n side
        ((getSide n side).set index (!((getSide n side).getD index false))) := rfl

theorem isValidPiece_setSide (n : SquarePieceNotches) (s : Side) (p : NotchPattern)
    (hv : isValidPiece n = true) (hp : validateNotches p = true) :
    isValidPiece (setSide n s p) = true := by
  rw [isValidPiece_eq_true_iff] at hv ⊢
  obtain ⟨h1, h2, h3, h4⟩ := hv
  cases s
  · exact ⟨hp, h2, h3, h4⟩
  · exact ⟨h1, hp, h3, h4⟩
  · exact ⟨h1, h2, hp, h4⟩
  · exact ⟨h1, h2, h3, hp⟩

/-- Claim C8: starting from an editor state in which every side's pattern
has at least one present entry, `toggleNotch` preserves that invariant;
when the flip would leave the side with no present entry the state is
returned unchanged, and otherwise exactly the chosen position is flipped
while the other three sides are untouched. -/
theorem toggleNotch_preserves_invariant (n : SquarePieceNotches) (side : Side) (index : Nat)
    (hval : isValidPiece n = true)
    (hidx : index < (getSide n side).length) :
    isValidPiece (toggleNotch n side index) = true
    ∧ (((getSide n side).set index (!((getSide n side).getD index false))).all
        (fun present => !present) = true → toggleNotch n side index = n)
    ∧ (((getSide n side).set index (!((getSide n side).getD index false))).all
        (fun present => !present) = false →
      getSide (toggleNotch n side index) side
          = (getSide n side).set index (!((getSide n side).getD index false))
      ∧ (∀ s : Side, s ≠ side → getSide (toggleNotch n side index) s = getSide n s)
      ∧ (getSide (toggleNotch n side index) side).getD index false
          = !((getSide n side).getD index false)
      ∧ ∀ j : Nat, j ≠ index →
          (getSide (toggleNotch n side index) side).getD j false
            = (getSide n side).getD j false) := by
  by_cases hall : ((getSide n side).set index (!((getSide n side).getD index false))).all
      (fun present => !present) = true
  · refine ⟨?_, ?_, ?_⟩
    · rw [toggleNotch_def, if_pos hall]; exact hval
    · intro _; rw [toggleNotch_def, if_pos hall]
    · intro hf; exact Bool.noConfusion (hall.symm.trans hf)
  · have hall' : ((getSide n side).set index (!((getSide n side).getD index false))).all
        (fun present => !present) = false := by
      revert hall
      cases ((getSide n side).set index (!((getSide n side).getD index false))).all
          (fun present => !present) <;> simp
    have hset : toggleNotch n side index
        = setSide n side ((getSide n side).set index (!((getSide n side).getD index false))) := by
      rw [toggleNotch_def, if_neg hall]
    refine ⟨?_, ?_, ?_⟩
    · rw [hset]
      refine isValidPiece_setSide n side _ hval ?_
      rw [validateNotches_eq_not_all, hall']
      rfl
    · intro hf; exact Bool.noConfusion (hf.symm.trans hall')
    · intro _
      refine ⟨?_, ?_, ?_, ?_⟩
      · rw [hset, getSide_setSide_same]
      · intro s hs; rw [hset, getSide_setSide_ne n side s _ hs]
      · rw [hset, getSide_setSide_same]
        exact getD_set_self _ index _ false hidx
      · intro j hj
        rw [hset, getSide_setSide_same]
        exact getD_set_ne _ index j _ false hj

/-- Witness for claim C8 at a concrete editor state. -/
theorem toggleNotch_invariant_witness :
    isValidPiece defaultNotches = true
    ∧ isValidPiece (toggleNotch defaultNotches Side.top 0) = true :=
  ⟨by decide, (toggleNotch_preserves_invariant defaultNotches Side.top 0
      (by decide) (by decide)).1⟩

/-- Every side pattern of the record has exactly 6 positions. -/
def wellSized (n : SquarePieceNotches) : Prop :=
  n.top.length = 6 ∧ n.right.length = 6 ∧ n.bottom.length = 6 ∧ n.left.length = 6

/-- Claim C9: notch patterns have exactly 6 boolean positions; the
editor's initial state is well sized, `toggleNotch` never changes any
side's length, and saving passes the four patterns through unchanged. -/
theorem notch_patterns_have_length_six :
    wellSized defaultNotches
    ∧ (∀ (n : SquarePieceNotches) (side : Side) (index : Nat),
        wellSized n → wellSized (toggleNotch n side index))
    ∧ (∀ (pieceId : String) (n : SquarePieceNotches) (p : SavedPiece),
        handleSave pieceId n = some p → p.notches = n) := by
  refine ⟨⟨rfl, rfl, rfl, rfl⟩, ?_, ?_⟩
  · intro n side index hn
    rw [toggleNotch_def]
    by_cases hall : ((getSide n side).set index (!((getSide n side).getD index false))).all
        (fun present => !present) = true
    · rw [if_pos hall]; exact hn
    · rw [if_neg hall]
      obtain ⟨h1, h2, h3, h4⟩ := hn
      cases side <;>
        exact ⟨by simp [setSide, getSide, List.length_set, h1, h2, h3, h4], by
          simp [setSide, getSide, List.length_set, h1, h2, h3, h4], by
          simp [setSide, getSide, List.length_set, h1, h2, h3, h4], by
          simp [setSide, getSide, List.length_set, h1, h2, h3, h4]⟩
  · intro pieceId n p h
    unfold handleSave at h
    split at h
    · cases h; rfl
    · cases h

/-- Witness for claim C9 at a concrete editor state. -/
theorem notch_patterns_length_witness :
    wellSized (toggleNotch defaultNotches Side.left 2)
    ∧ (⟨"p", defaultNotches, 100⟩ : SavedPiece).notches = defaultNotches :=
  ⟨notch_patterns_have_length_six.2.1 defaultNotches Side.left 2
      notch_patterns_have_length_six.1,
   notch_patterns_have_length_six.2.2 "p" defaultNotches ⟨"p", defaultNotches, 100⟩
      (by decide)⟩

/-- Claim C1: accepted piece descriptors have at least one present entry
in each of the four edge patterns; constructing a descriptor with an
all-notched edge pattern fails with `InvalidPiece`; and the square-piece
editor's save succeeds exactly when every side's pattern has at least one
present entry. -/
theorem pieceDescriptor_edge_validity :
    (∀ (pid : String) (dims : ℚ × ℚ × ℚ) (cp : List ℚ) (sf : ShapeFeatures)
        (conn : Option SquarePieceNotches) (p : PieceDescriptor),
      mkPieceDescriptor pid dims cp sf conn = .ok p →
      ∀ c, p.connectivity = some c →
        validateNotches c.top = true ∧ validateNotches c.right = true
        ∧ validateNotches c.bottom = true ∧ validateNotches c.left = true)
    ∧ (∀ (pid : String) (dims : ℚ × ℚ × ℚ) (cp : List ℚ) (sf : ShapeFeatures)
        (c : SquarePieceNotches),
      (c.top.all (fun b => !b) = true ∨ c.right.all (fun b => !b) = true
        ∨ c.bottom.all (fun b => !b) = true ∨ c.left.all (fun b => !b) = true) →
      mkPieceDescriptor pid dims cp sf (some c) = .error .invalidPiece)
    ∧ (∀ (pieceId : String) (n : SquarePieceNotches),
      (handleSave pieceId n).isSome = true ↔ isValidPiece n = true) := by
  refine ⟨?_, ?_, ?_⟩
  · intro pid dims cp sf conn p h c hc
    unfold mkPieceDescriptor at h
    split at h
    · cases h
    · split at h
      · rename_i c0
        split at h
        · rename_i hvalid
          cases h
          injection hc with hc
          subst hc
          exact (isValidPiece_eq_true_iff c0).1 hvalid
        · cases h
      · cases h
        cases hc
  · intro pid dims cp sf c hside
    have hv : isValidPiece c = false := by
      rw [isValidPiece]
      rcases hside with h | h | h | h <;>
        simp [validateNotches_eq_not_all, h]
    unfold mkPieceDescriptor
    split
    · rfl
    · simp [hv]
  · intro pieceId n
    unfold handleSave
    split
    · rename_i hv; simp [hv]
    · rename_i hv; simp [Bool.not_eq_true] at hv; simp [hv]

/-- Witness for claim C1 at a concrete descriptor and editor state. -/
theorem pieceDescriptor_edge_validity_witness :
    (validateNotches defaultNotches.top = true ∧ validateNotches defaultNotches.right = true
      ∧ validateNotches defaultNotches.bottom = true
      ∧ validateNotches defaultNotches.left = true)
    ∧ mkPieceDescriptor "q" (1, 1, 1) [] ⟨1, 1, 1, 0⟩
        (some ⟨[false, false, false, false, false, false],
          defaultSidePattern, defaultSidePattern, defaultSidePattern⟩)
        = .error .invalidPiece
    ∧ ((handleSave "p" defaultNotches).isSome = true ↔ isValidPiece defaultNotches = true) :=
  ⟨pieceDescriptor_edge_validity.1 "q" (1, 1, 1) [] ⟨1, 1, 1, 0⟩ (some defaultNotches)
      ⟨"q", (1, 1, 1), [], ⟨1, 1, 1, 0⟩, some defaultNotches⟩ rfl
      defaultNotches rfl,
   pieceDescriptor_edge_validity.2.1 "q" (1, 1, 1) [] ⟨1, 1, 1, 0⟩
      ⟨[false, false, false, false, false, false],
        defaultSidePattern, defaultSidePattern, defaultSidePattern⟩
      (Or.inl (by decide)),
   pieceDescriptor_edge_validity.2.2 "p" defaultNotches⟩

/-- Claim C10: the square-piece renderer yields geometry only for pieces
declaring both `notches` and `size`; a piece lacking either renders
nothing; and the viewer shows exactly the pieces with a `notches` field,
falling back to the empty-state message when there are none. -/
theorem squareViewer_shows_notched_pieces :
    (∀ piece : PuzzlePiece, (squarePiece3D piece).isSome = true →
      piece.notches.isSome = true ∧ piece.size.isSome = true)
    ∧ (∀ piece : PuzzlePiece, piece.notches = none ∨ piece.size = none →
      squarePiece3D piece = none)
    ∧ (∀ pieces : List PuzzlePiece,
      squarePieceViewer3D pieces = ViewerOutput.emptyState ↔
        pieces.filter (fun p => p.notches.isSome) = [])
    ∧ (∀ (pieces : List PuzzlePiece) (rendered : List (String × Option SquareGeometry)),
      squarePieceViewer3D pieces = ViewerOutput.canvas rendered →
        rendered.map Prod.fst
          = (pieces.filter (fun p => p.notches.isSome)).map (fun p => p.id)) := by
  refine ⟨?_, ?_, ?_, ?_⟩
  · intro piece h
    cases hn : piece.notches with
    | none => simp [squarePiece3D, hn] at h
    | some n =>
      cases hs : piece.size with
      | none => simp [squarePiece3D, hn, hs] at h
      | some sz => simp [hn, hs]
  · intro piece h
    rcases h with h | h
    · simp [squarePiece3D, h]
    · cases hn : piece.notches with
      | none => simp [squarePiece3D, hn]
      | some n => simp [squarePiece3D, hn, h]
  · intro pieces
    constructor
    · intro h
      by_cases hf : (pieces.filter (fun p => p.notches.isSome)).length = 0
      · exact List.length_eq_zero.mp hf
      · simp [squarePieceViewer3D, hf] at h
    · intro h
      simp [squarePieceViewer3D, h]
  · intro pieces rendered h
    by_cases hf : (pieces.filter (fun p => p.notches.isSome)).length = 0
    · simp [squarePieceViewer3D, hf] at h
    · simp [squarePieceViewer3D, hf] at h
      rw [← h, List.map_map]
      rfl

/-- Witness for claim C10 at concrete pieces. -/
theorem squareViewer_witness :
    (squarePiece3D ⟨"a", none, none, []⟩ = none)
    ∧ ((⟨"b", some defaultNotches, some 100, []⟩ : PuzzlePiece).notches.isSome = true
        ∧ (⟨"b", some defaultNotches, some 100, []⟩ : PuzzlePiece).size.isSome = true)
    ∧ (squarePieceViewer3D [] = ViewerOutput.emptyState ↔
        ([] : List PuzzlePiece).filter (fun p => p.notches.isSome) = []) :=
  ⟨squareViewer_shows_notched_pieces.2.1 ⟨"a", none, none, []⟩ (Or.inl rfl),
   squareViewer_shows_notched_pieces.1 ⟨"b", some defaultNotches, some 100, []⟩ (by decide),
   squareViewer_shows_notched_pieces.2.2.1 []⟩

/-! ## Compatibility evaluator (modelled from the spec, §4.1) -/

/-- Modelled from the spec: two aligned edge patterns interlock when, at
every position, exactly one of the two entries is present and the other
notched. -/
def edgeInterlocks (pa pb : NotchPattern) : Bool :=
  pa.length == pb.length && (List.zip pa pb).all (fun q => q.1 != q.2)

/-- Modelled from the spec: the large fixed finite penalty contributed by
a violated interlocking constraint (near-infeasible, not infinite). -/
def connectivityPenalty : ℚ := 1000

/-- Modelled from the spec: connectivity term of the pairwise cost — zero
for an interlocking shared edge, the fixed penalty for a violated one,
and zero when either piece declares no connectivity. -/
def connectivityCost (a b : PieceDescriptor) (ea eb : Side) : ℚ :=
  match a.connectivity, b.connectivity with
  | some ca, some cb =>
    if edgeInterlocks (getSide ca ea) (getSide cb eb) then 0 else connectivityPenalty
  | _, _ => 0

/-- The relevant dimension component along an edge: the x extent for the
top/bottom edges, the y extent for the left/right edges. -/
def dimAlong (p : PieceDescriptor) : Side → ℚ
  | .top => p.dimensions.1
  | .bottom => p.dimensions.1
  | .left => p.dimensions.2.1
  | .right => p.dimensions.2.1

/-- Modelled from the spec: geometric term — squared difference of the
relevant dimension components. -/
def geometricTerm (a b : PieceDescriptor) (ea eb : Side) : ℚ :=
  (dimAlong a ea - dimAlong b eb) ^ 2

/-- Modelled from the spec: appearance term — distance between the color
profiles; the spec's Euclidean distance is represented by its square so
that the evaluator stays inside the rationals (order-equivalent for all
comparisons the strategies make). -/
def appearanceTerm (a b : PieceDescriptor) : ℚ :=
  (List.zip a.colorProfile b.colorProfile).foldr (fun q acc => (q.1 - q.2) ^ 2 + acc) 0

/-- Modelled from the spec: shape term — absolute difference of
complexity and of corner count. -/
def shapeTerm (a b : PieceDescriptor) : ℚ :=
  |a.shapeFeatures.complexity - b.shapeFeatures.complexity|
  + |(a.shapeFeatures.cornerCount : ℚ) - (b.shapeFeatures.cornerCount : ℚ)|

/-- Weights of the four cost terms; part of solver configuration. -/
structure CostWeights where
  connectivity : ℚ
  geometric : ℚ
  appearance : ℚ
  shape : ℚ
deriving DecidableEq

/-- Modelled from the spec: default weights, with the appearance term
weighted lower than the connectivity term. -/
def defaultWeights : CostWeights := ⟨1, 1, 1/2, 1⟩

/-- Modelled from the spec: total pairwise cost — a fixed weighted sum of
the four terms. -/
def pairCost (w : CostWeights) (a b : PieceDescriptor) (ea eb : Side) : ℚ :=
  w.connectivity * connectivityCost a b ea eb
  + w.geometric * geometricTerm a b ea eb
  + w.appearance * appearanceTerm a b
  + w.shape * shapeTerm a b

/-! ## Arrangements and the arrangement cost -/

/-- A placement: position and rotation (degrees), from the spec (§3). -/
structure Placement where
  pos : ℚ × ℚ × ℚ
  rot : ℚ × ℚ × ℚ
deriving DecidableEq

/-- An arrangement: the mapping from piece id to placement, represented
as an association list (§3). -/
abbrev Arrangement := List (String × Placement)

/-- The piece ids to which an arrangement assigns placements. -/
def keysOf (a : Arrangement) : List String := a.map Prod.fst

/-- Modelled from the spec: tolerance within which two bounding volumes
count as touching. -/
def adjacencyTolerance : ℚ := 1/10

/-- Modelled from the spec: two placed pieces are adjacent when their
bounding volumes touch within the tolerance on every axis (rotation is
not applied to the bounding box in this model). -/
def adjacent (a b : PieceDescriptor) (pa pb : Placement) : Bool :=
  decide (|pa.pos.1 - pb.pos.1| ≤ (a.dimensions.1 + b.dimensions.1) / 2 + adjacencyTolerance)
  && decide (|pa.pos.2.1 - pb.pos.2.1|
      ≤ (a.dimensions.2.1 + b.dimensions.2.1) / 2 + adjacencyTolerance)
  && decide (|pa.pos.2.2 - pb.pos.2.2|
      ≤ (a.dimensions.2.2 + b.dimensions.2.2) / 2 + adjacencyTolerance)

/-- Modelled from the spec: the shared edge implied by the relative
position of two adjacent pieces, taken along the dominant axis of their
offset. -/
def selectEdges (pa pb : Placement) : Side × Side :=
  let dx := pb.pos.1 - pa.pos.1
  let dy := pb.pos.2.1 - pa.pos.2.1
  if |dy| ≤ |dx| then
    if 0 ≤ dx then (Side.right, Side.left) else (Side.left, Side.right)
  else
    if 0 ≤ dy then (Side.top, Side.bottom) else (Side.bottom, Side.top)

/-- Look up a descriptor by piece id. -/
def findPiece (pieces : List PieceDescriptor) (pid : String) : Option PieceDescriptor :=
  pieces.find? (fun p => p.id == pid)

/-- All unordered pairs of entries of a list. -/
def pairsOf {α : Type} : List α → List (α × α)
  | [] => []
  | x :: rest => rest.map (fun y => (x, y)) ++ pairsOf rest

/-- Cost contributed by one pair of placed pieces. -/
def placedPairCost (w : CostWeights) (pieces : List PieceDescriptor)
    (e1 e2 : String × Placement) : ℚ :=
  match findPiece pieces e1.1, findPiece pieces e2.1 with
  | some a, some b =>
    if adjacent a b e1.2 e2.2 then
      pairCost w a b (selectEdges e1.2 e2.2).1 (selectEdges e1.2 e2.2).2
    else 0
  | _, _ => 0

/-- Modelled from the spec: the arrangement cost — the sum of pairwise
costs over all piece pairs whose placed bounding volumes touch. -/
def arrangementCost (w : CostWeights) (pieces : List PieceDescriptor)
    (arr : Arrangement) : ℚ :=
  (pairsOf arr).foldr (fun pr acc => placedPairCost w pieces pr.1 pr.2 + acc) 0

theorem zip_all_ne_iff : ∀ (pa pb : NotchPattern), pa.length = pb.length →
    (((List.zip pa pb).all fun q => q.1 != q.2) = true ↔
      ∀ (i : Nat) (h : i < pa.length) (h2 : i < pb.length), pa.get ⟨i, h⟩ ≠ pb.get ⟨i, h2⟩)
  | [], [], _ => by simp
  | [], _ :: _, h => by simp at h
  | _ :: _, [], h => by simp at h
  | a :: pa, b :: pb, h => by
    have hlen : pa.length = pb.length := by simpa using h
    have ih := zip_all_ne_iff pa pb hlen
    simp only [List.zip_cons_cons, List.all_cons, Bool.and_eq_true]
    constructor
    · rintro ⟨hab, hrest⟩ i hi hi2
      cases i with
      | zero => exact bne_iff_ne.mp hab
      | succ i =>
        exact (ih.1 hrest) i (Nat.lt_of_succ_lt_succ hi) (Nat.lt_of_succ_lt_succ hi2)
    · intro hne
      refine ⟨bne_iff_ne.mpr (hne 0 (Nat.succ_pos _) (Nat.succ_pos _)), ih.2 ?_⟩
      intro i hi hi2
      exact hne (i + 1) (Nat.succ_lt_succ hi) (Nat.succ_lt_succ hi2)

/-- Claim C4: with both pieces declaring connectivity, the shared edge is
valid exactly when at every position exactly one of the two entries is
present and the other notched; a violated constraint contributes the
fixed finite penalty as the connectivity term, a valid one contributes
zero, and the penalty is a positive (finite) rational. -/
theorem connectivity_term_interlocking :
    (∀ pa pb : NotchPattern, pa.length = pb.length →
      (edgeInterlocks pa pb = true ↔
        ∀ (i : Nat) (h : i < pa.length) (h2 : i < pb.length),
          pa.get ⟨i, h⟩ ≠ pb.get ⟨i, h2⟩))
    ∧ (∀ (a b : PieceDescriptor) (ca cb : SquarePieceNotches) (ea eb : Side),
      a.connectivity = some ca → b.connectivity = some cb →
      edgeInterlocks (getSide ca ea) (getSide cb eb) = false →
      connectivityCost a b ea eb = connectivityPenalty)
    ∧ (∀ (a b : PieceDescriptor) (ca cb : SquarePieceNotches) (ea eb : Side),
      a.connectivity = some ca → b.connectivity = some cb →
      edgeInterlocks (getSide ca ea) (getSide cb eb) = true →
      connectivityCost a b ea eb = 0)
    ∧ (0 < connectivityPenalty) := by
  refine ⟨?_, ?_, ?_, by norm_num [connectivityPenalty]⟩
  · intro pa pb h
    have hbeq : (pa.length == pb.length) = true := by simp [h]
    simp only [edgeInterlocks, hbeq, Bool.true_and]
    exact zip_all_ne_iff pa pb h
  · intro a b ca cb ea eb ha hb hI
    simp [connectivityCost, ha, hb, hI]
  · intro a b ca cb ea eb ha hb hI
    simp [connectivityCost, ha, hb, hI]

/-- Witness for claim C4 at concrete pieces: identical (non-interlocking)
patterns incur the penalty; complementary patterns cost zero. -/
theorem connectivity_term_witness :
    connectivityCost ⟨"a", (1, 1, 1), [], ⟨1, 1, 1, 0⟩, some defaultNotches⟩
        ⟨"b", (1, 1, 1), [], ⟨1, 1, 1, 0⟩, some defaultNotches⟩
        Side.right Side.left = connectivityPenalty
    ∧ connectivityCost ⟨"a", (1, 1, 1), [], ⟨1, 1, 1, 0⟩, some defaultNotches⟩
        ⟨"c", (1, 1, 1), [], ⟨1, 1, 1, 0⟩,
          some ⟨[false, true, false, false, true, false],
            [false, true, false, false, true, false],
            [false, true, false, false, true, false],
            [false, true, false, false, true, false]⟩⟩
        Side.right Side.left = 0 :=
  ⟨connectivity_term_interlocking.2.1 _ _ defaultNotches defaultNotches
      Side.right Side.left rfl rfl (by decide),
   connectivity_term_interlocking.2.2.1 _ _ defaultNotches
      ⟨[false, true, false, false, true, false], [false, true, false, false, true, false],
        [false, true, false, false, true, false], [false, true, false, false, true, false]⟩
      Side.right Side.left rfl rfl (by decide)⟩

/-! ## Solve job controller (modelled from the spec, §3, §4.3, §6, §7) -/

/-- The three search strategies (§2). -/
inductive Strategy where
  | genetic
  | simulatedAnnealing
  | reinforcementLearning
deriving DecidableEq

/-- Job lifecycle states (§3). -/
inductive JobStatus where
  | running
  | cancelled
  | completed
  | failed
deriving DecidableEq

/-- A status is terminal when it is no longer Running. -/
def JobStatus.isTerminal : JobStatus → Bool
  | .running => false
  | _ => true

/-- Modelled from the spec: the fields of a solve job (§3). -/
structure SolveJob where
  algorithm : Strategy
  maxIterations : Nat
  status : JobStatus
  iteration : Nat
  bestArrangement : Option Arrangement
  confidence : Option ℚ
deriving DecidableEq

/-- Modelled from the spec: progress is reported as
`iteration / max_iterations` (§4.3). -/
def progressFraction (j : SolveJob) : ℚ :=
  (j.iteration : ℚ) / (j.maxIterations : ℚ)

/-- Modelled from the spec: one controller step of a job — a running
job's iteration counter advances (capped at the budget) and the job
completes when the budget is exhausted; terminal jobs are untouched. -/
def jobTick (j : SolveJob) : SolveJob :=
  if j.status = JobStatus.running then
    { j with iteration := min (j.iteration + 1) j.maxIterations,
             status := if min (j.iteration + 1) j.maxIterations = j.maxIterations
                       then JobStatus.completed else JobStatus.running }
  else j

theorem jobTick_maxIterations (j : SolveJob) :
    (jobTick j).maxIterations = j.maxIterations := by
  unfold jobTick
  split <;> rfl

theorem jobTick_iteration (j : SolveJob) (h : j.iteration ≤ j.maxIterations) :
    j.iteration ≤ (jobTick j).iteration
    ∧ (jobTick j).iteration ≤ (jobTick j).maxIterations := by
  unfold jobTick
  split
  · exact ⟨le_min (Nat.le_succ _) h, min_le_right _ _⟩
  · exact ⟨le_refl _, h⟩

theorem jobTick_iterate_invariant (j : SolveJob) (hit : j.iteration ≤ j.maxIterations) :
    ∀ k : Nat, (jobTick^[k] j).maxIterations = j.maxIterations
      ∧ (jobTick^[k] j).iteration ≤ (jobTick^[k] j).maxIterations := by
  intro k
  induction k with
  | zero => exact ⟨rfl, hit⟩
  | succ k ih =>
    rw [Function.iterate_succ_apply']
    exact ⟨(jobTick_maxIterations _).trans ih.1, (jobTick_iteration _ ih.2).2⟩

/-- Claim C6: over successive polls of a job the progress fraction is
monotonically non-decreasing and stays within the unit interval. -/
theorem progress_fraction_monotone (j : SolveJob)
    (hmax : 0 < j.maxIterations) (hit : j.iteration ≤ j.maxIterations) :
    (∀ k : Nat, progressFraction (jobTick^[k] j) ≤ progressFraction (jobTick^[k + 1] j))
    ∧ (∀ k : Nat, 0 ≤ progressFraction (jobTick^[k] j)
        ∧ progressFraction (jobTick^[k] j) ≤ 1) := by
  have hmaxq : (0 : ℚ) < (j.maxIterations : ℚ) := by exact_mod_cast hmax
  constructor
  · intro k
    have inv := jobTick_iterate_invariant j hit k
    rw [Function.iterate_succ_apply']
    unfold progressFraction
    rw [jobTick_maxIterations, inv.1]
    apply div_le_div_of_nonneg_right ?_ hmaxq.le
    · exact_mod_cast (jobTick_iteration _ inv.2).1
  · intro k
    have inv := jobTick_iterate_invariant j hit k
    unfold progressFraction
    constructor
    · exact div_nonneg (by positivity) (by positivity)
    · rw [inv.1]
      rw [div_le_one hmaxq]
      have := inv.2
      rw [inv.1] at this
      exact_mod_cast this

/-- Witness for claim C6 at a concrete running job. -/
theorem progress_fraction_witness :
    progressFraction (jobTick^[1] ⟨Strategy.genetic, 10, JobStatus.running, 0, none, none⟩)
      ≤ progressFraction (jobTick^[2] ⟨Strategy.genetic, 10, JobStatus.running, 0, none, none⟩) :=
  (progress_fraction_monotone ⟨Strategy.genetic, 10, JobStatus.running, 0, none, none⟩
    (by decide) (by decide)).1 1

/-- The controller's reply to a cancel request. -/
inductive CancelOutcome where
  | ack (status : JobStatus)
  | notFound
deriving DecidableEq

/-- Modelled from the spec (§4.3, §6): `cancel` transitions a Running job
to Cancelled; on an already-terminal job it returns the current status
without error; with no job at all it fails with NotFound. -/
def cancelJob : Option JobStatus → CancelOutcome × Option JobStatus
  | none => (CancelOutcome.notFound, none)
  | some JobStatus.running =>
    (CancelOutcome.ack JobStatus.cancelled, some JobStatus.cancelled)
  | some s => (CancelOutcome.ack s, some s)

/-- Claim C7: cancelling the same job twice yields the same terminal
status both times, and the second call — made on an already-terminal
job — returns that status without error. -/
theorem cancel_idempotent (s : JobStatus) :
    ∃ t : JobStatus,
      (cancelJob (some s)).1 = CancelOutcome.ack t
      ∧ (cancelJob (cancelJob (some s)).2).1 = CancelOutcome.ack t
      ∧ t.isTerminal = true
      ∧ (cancelJob (cancelJob (some s)).2).1 ≠ CancelOutcome.notFound := by
  cases s
  · exact ⟨JobStatus.cancelled, rfl, rfl, rfl, by decide⟩
  · exact ⟨JobStatus.cancelled, rfl, rfl, rfl, by decide⟩
  · exact ⟨JobStatus.completed, rfl, rfl, rfl, by decide⟩
  · exact ⟨JobStatus.failed, rfl, rfl, rfl, by decide⟩

/-! ## Confidence (modelled from the spec, §4.3) -/

/-- Modelled from the spec: `confidence = max(0, 1 - cost / worst)`,
clamped to the unit interval. -/
def confidenceOf (cost worst : ℚ) : ℚ := min 1 (max 0 (1 - cost / worst))

/-- Modelled from the spec: the cost of the worst feasible arrangement,
which the spec references but does not define further; modelled as the
connectivity penalty for every unordered piece pair, plus one. -/
def worstFeasibleCost (pieces : List PieceDescriptor) : ℚ :=
  connectivityPenalty * ((pairsOf pieces).length : ℚ) + 1

/-- Modelled from the spec (§4.3): completing a job stores the final
arrangement and the confidence derived from its cost. -/
def finishJob (pieces : List PieceDescriptor) (j : SolveJob) (final : Arrangement) :
    SolveJob :=
  { j with status := JobStatus.completed,
           bestArrangement := some final,
           confidence := some (confidenceOf (arrangementCost defaultWeights pieces final)
             (worstFeasibleCost pieces)) }

/-- Claim C5: a completed job reports `max(0, 1 - cost/worst)` clamped to
the unit interval; that confidence is antitone in the final cost, equals
1 at cost 0, and never leaves [0, 1] (the worst-feasible reference cost
being positive). -/
theorem confidence_from_cost :
    (∀ (pieces : List PieceDescriptor) (j : SolveJob) (final : Arrangement),
      (finishJob pieces j final).confidence
        = some (confidenceOf (arrangementCost defaultWeights pieces final)
            (worstFeasibleCost pieces)))
    ∧ (∀ w : ℚ, 0 < w → confidenceOf 0 w = 1)
    ∧ (∀ w c1 c2 : ℚ, 0 < w → c1 ≤ c2 → confidenceOf c2 w ≤ confidenceOf c1 w)
    ∧ (∀ c w : ℚ, 0 ≤ confidenceOf c w ∧ confidenceOf c w ≤ 1)
    ∧ (∀ pieces : List PieceDescriptor, 0 < worstFeasibleCost pieces) := by
  refine ⟨fun _ _ _ => rfl, ?_, ?_, ?_, ?_⟩
  · intro w hw
    simp [confidenceOf, zero_div]
  · intro w c1 c2 hw h12
    unfold confidenceOf
    have hdiv : c1 / w ≤ c2 / w := div_le_div_of_nonneg_right h12 hw.le
    exact min_le_min (le_refl 1) (max_le_max (le_refl 0) (by linarith))
  · intro c w
    exact ⟨le_min zero_le_one (le_max_left 0 _), min_le_left 1 _⟩
  · intro pieces
    unfold worstFeasibleCost connectivityPenalty
    positivity

/-- Witness for claim C5 at concrete costs. -/
theorem confidence_from_cost_witness :
    confidenceOf 0 1 = 1 ∧ confidenceOf 2 1 ≤ confidenceOf 1 1 :=
  ⟨confidence_from_cost.2.1 1 one_pos,
   confidence_from_cost.2.2.1 1 1 2 one_pos one_le_two⟩

/-! ## Solve request validation (modelled from the spec, §6, §7) -/

/-- Algorithm-specific tunables (§6, README "Algorithm Parameters"). -/
structure SolverTunables where
  populationSize : Nat
  mutationRate : ℚ
  initialTemperature : ℚ
  coolingRate : ℚ
deriving DecidableEq

/-- Modelled from the spec: the documented valid ranges of the tunables —
population size 20–100, mutation rate 0.01–0.5, initial temperature
50–500, cooling rate 0.9–0.999. -/
def tunablesValid (t : SolverTunables) : Bool :=
  decide (20 ≤ t.populationSize) && decide (t.populationSize ≤ 100)
  && decide ((1 : ℚ)/100 ≤ t.mutationRate) && decide (t.mutationRate ≤ 1/2)
  && decide ((50 : ℚ) ≤ t.initialTemperature) && decide (t.initialTemperature ≤ 500)
  && decide ((9 : ℚ)/10 ≤ t.coolingRate) && decide (t.coolingRate ≤ 999/1000)

/-- The wire format of a solve request (`SolverRequest` in
`types/puzzle.ts`, plus the spec's configuration object). -/
structure SolveRequest where
  puzzleId : String
  algorithm : String
  maxIterations : Nat
  tunables : SolverTunables
deriving DecidableEq

/-- Parse the algorithm name of a request. -/
def parseAlgorithm (s : String) : Option Strategy :=
  if s = "genetic" then some Strategy.genetic
  else if s = "simulated_annealing" then some Strategy.simulatedAnnealing
  else if s = "reinforcement_learning" then some Strategy.reinforcementLearning
  else none

/-- The in-memory job registry keyed by puzzle id. -/
abbrev JobRegistry := List (String × SolveJob)

/-- Modelled from the spec (§4.3, §6, §7): `solve` validates the
algorithm name, the iteration budget and the tunables synchronously, and
only then — if no job is active for the puzzle — creates a Running job. -/
def solveStart (reg : JobRegistry) (req : SolveRequest) :
    Except SolverError (JobRegistry × SolveJob) :=
  match parseAlgorithm req.algorithm with
  | none => .error .invalidConfiguration
  | some alg =>
    if req.maxIterations < 100 || 10000 < req.maxIterations then
      .error .invalidConfiguration
    else if !tunablesValid req.tunables then .error .invalidConfiguration
    else if (reg.lookup req.puzzleId).any (fun j => j.status == JobStatus.running) then
      .error .alreadyRunning
    else
      .ok ((req.puzzleId, ⟨alg, req.maxIterations, JobStatus.running, 0, none, none⟩) :: reg,
        ⟨alg, req.maxIterations, JobStatus.running, 0, none, none⟩)

theorem parseAlgorithm_name (s : String) (alg : Strategy)
    (h : parseAlgorithm s = some alg) :
    s = "genetic" ∨ s = "simulated_annealing" ∨ s = "reinforcement_learning" := by
  unfold parseAlgorithm at h
  split at h
  · exact Or.inl (by assumption)
  · split at h
    · exact Or.inr (Or.inl (by assumption))
    · split at h
      · exact Or.inr (Or.inr (by assumption))
      · cases h

/-- Claim C3: a solve request is accepted only when its algorithm is one
of the three documented names, its iteration budget lies in [100, 10000]
and every tunable is within its documented range; a violated range is
rejected synchronously with `InvalidConfiguration` and no job is
created. -/
theorem solve_request_validation :
    (∀ (reg : JobRegistry) (req : SolveRequest) (out : JobRegistry × SolveJob),
      solveStart reg req = .ok out →
        (req.algorithm = "genetic" ∨ req.algorithm = "simulated_annealing"
          ∨ req.algorithm = "reinforcement_learning")
        ∧ 100 ≤ req.maxIterations ∧ req.maxIterations ≤ 10000
        ∧ tunablesValid req.tunables = true)
    ∧ (∀ (reg : JobRegistry) (req : SolveRequest),
      tunablesValid req.tunables = false →
        solveStart reg req = .error .invalidConfiguration)
    ∧ (∀ (reg : JobRegistry) (req : SolveRequest),
      req.maxIterations < 100 ∨ 10000 < req.maxIterations →
        solveStart reg req = .error .invalidConfiguration)
    ∧ (∀ (reg : JobRegistry) (req : SolveRequest),
      parseAlgorithm req.algorithm = none →
        solveStart reg req = .error .invalidConfiguration) := by
  refine ⟨?_, ?_, ?_, ?_⟩
  · intro reg req out h
    unfold solveStart at h
    split at h
    · cases h
    · rename_i alg halg
      split at h
      · cases h
      · rename_i hiter
        split at h
        · cases h
        · rename_i htun
          split at h
          · cases h
          · simp only [Bool.or_eq_true, not_or, decide_eq_true_eq, Nat.not_lt] at hiter
            simp only [Bool.not_eq_true'] at htun
            rw [Bool.not_eq_false] at htun
            exact ⟨parseAlgorithm_name _ alg halg, hiter.1, Nat.le_of_not_lt
              (by intro hc; exact absurd (by simpa using hc) (by simp [hiter.2])), htun⟩
  · intro reg req htun
    unfold solveStart
    split
    · rfl
    · split
      · rfl
      · rw [if_pos (by simp [htun])]
  · intro reg req hiter
    unfold solveStart
    split
    · rfl
    · rw [if_pos ?_]
      rcases hiter with h | h
      · simp [h]
      · simp [h]
  · intro reg req halg
    unfold solveStart
    split
    · rfl
    · rename_i alg halg2
      rw [halg] at halg2
      cases halg2

/-- Witness for claim C3: an out-of-range tunable is rejected with
`InvalidConfiguration`, and a fully valid request is accepted. -/
theorem solve_request_validation_witness :
    tunablesValid ⟨5, 1/10, 100, 95/100⟩ = false
    ∧ solveStart [] ⟨"p1", "genetic", 1000, ⟨5, 1/10, 100, 95/100⟩⟩
        = .error .invalidConfiguration
    ∧ ("genetic" = "genetic" ∨ "genetic" = "simulated_annealing"
        ∨ "genetic" = "reinforcement_learning") :=
  ⟨by decide,
   solve_request_validation.2.1 [] ⟨"p1", "genetic", 1000, ⟨5, 1/10, 100, 95/100⟩⟩ (by decide),
   (solve_request_validation.1 [] ⟨"p1", "genetic", 1000, ⟨50, 1/10, 100, 95/100⟩⟩
      (([("p1", ⟨Strategy.genetic, 1000, JobStatus.running, 0, none, none⟩)],
        ⟨Strategy.genetic, 1000, JobStatus.running, 0, none, none⟩))
      (by simp [solveStart, parseAlgorithm, tunablesValid]; norm_num)).1⟩

/-! ## Search strategies (modelled from the spec, §4.2)

The spec's stochastic choices are drawn from a deterministic linear
congruential generator seeded by the caller, so every run is a concrete
computable sequence; the annealing acceptance probability `exp(-d/T)` is
represented by a monotone rational surrogate. -/

/-- Deterministic pseudo-random stream. -/
def lcgNext (s : Nat) : Nat := (1103515245 * s + 12345) % 2147483648

/-- A bounded jitter amount in [-1, 1] drawn from a seed. -/
def jitter (r : Nat) : ℚ := ((r % 21 : Nat) : ℚ) / 10 - 1

/-- Randomly perturb a placement: bounded jitter on each position
coordinate and a bounded multiple of 15 degrees on each rotation
component. -/
def perturbPlacement (r : Nat) (p : Placement) : Placement :=
  ⟨(p.pos.1 + jitter (lcgNext r),
    p.pos.2.1 + jitter (lcgNext (lcgNext r)),
    p.pos.2.2 + jitter (lcgNext (lcgNext (lcgNext r)))),
   (p.rot.1 + 15 * jitter (lcgNext (lcgNext (lcgNext (lcgNext r)))),
    p.rot.2.1 + 15 * jitter (lcgNext (lcgNext (lcgNext (lcgNext (lcgNext r))))),
    p.rot.2.2 + 15 * jitter (lcgNext (lcgNext (lcgNext (lcgNext (lcgNext (lcgNext r)))))))⟩

/-- Modelled from the spec: `initialize(pieces)` lays the pieces out in a
deterministic line, one placement per input piece. -/
def initPlacements : Nat → List PieceDescriptor → Arrangement
  | _, [] => []
  | i, pc :: rest => (pc.id, ⟨((i : ℚ), 0, 0), (0, 0, 0)⟩) :: initPlacements (i + 1) rest

/-- The deterministic initial arrangement of a piece set. -/
def initializeArrangement (pieces : List PieceDescriptor) : Arrangement :=
  initPlacements 0 pieces

/-- Replace the placement at one position of an arrangement, keeping the
piece id there. -/
def modifyPlacement : Arrangement → Nat → (Placement → Placement) → Arrangement
  | [], _, _ => []
  | kv :: rest, 0, f => (kv.1, f kv.2) :: rest
  | kv :: rest, i + 1, f => kv :: modifyPlacement rest i f

/-- Swap the placements at two positions of an arrangement. -/
def swapPlacements (arr : Arrangement) (i j : Nat) : Arrangement :=
  match arr.get? i, arr.get? j with
  | some a, some b =>
    modifyPlacement (modifyPlacement arr i (fun _ => b.2)) j (fun _ => a.2)
  | _, _ => arr

/-- Perturb the placement at one position (no-op out of range). -/
def perturbAt (arr : Arrangement) (i r : Nat) : Arrangement :=
  match arr.get? i with
  | none => arr
  | some kv => modifyPlacement arr i (fun _ => perturbPlacement r kv.2)

/-- The cheaper of two arrangements. -/
def betterOf (pieces : List PieceDescriptor) (a b : Arrangement) : Arrangement :=
  if arrangementCost defaultWeights pieces a < arrangementCost defaultWeights pieces b
  then a else b

theorem keysOf_modifyPlacement : ∀ (arr : Arrangement) (i : Nat) (f : Placement → Placement),
    keysOf (modifyPlacement arr i f) = keysOf arr
  | [], _, _ => rfl
  | _ :: _, 0, _ => rfl
  | kv :: rest, i + 1, f => by
    show kv.1 :: keysOf (modifyPlacement rest i f) = kv.1 :: keysOf rest
    rw [keysOf_modifyPlacement rest i f]

theorem keysOf_swapPlacements (arr : Arrangement) (i j : Nat) :
    keysOf (swapPlacements arr i j) = keysOf arr := by
  unfold swapPlacements
  split
  · rw [keysOf_modifyPlacement, keysOf_modifyPlacement]
  · rfl

theorem keysOf_perturbAt (arr : Arrangement) (i r : Nat) :
    keysOf (perturbAt arr i r) = keysOf arr := by
  unfold perturbAt
  split
  · rfl
  · rw [keysOf_modifyPlacement]

theorem keysOf_initPlacements : ∀ (i : Nat) (pieces : List PieceDescriptor),
    keysOf (initPlacements i pieces) = pieces.map (fun p => p.id)
  | _, [] => rfl
  | i, pc :: rest => by
    show pc.id :: keysOf (initPlacements (i + 1) rest) = pc.id :: rest.map (fun p => p.id)
    rw [keysOf_initPlacements (i + 1) rest]

theorem keysOf_initializeArrangement (pieces : List PieceDescriptor) :
    keysOf (initializeArrangement pieces) = pieces.map (fun p => p.id) :=
  keysOf_initPlacements 0 pieces

theorem betterOf_eq_or (pieces : List PieceDescriptor) (a b : Arrangement) :
    betterOf pieces a b = a ∨ betterOf pieces a b = b := by
  unfold betterOf
  split
  · exact Or.inl rfl
  · exact Or.inr rfl

/-! ### Simulated annealing (§4.2.2) -/

/-- Configuration of the annealing strategy. -/
structure SAConfig where
  initialTemperature : ℚ
  coolingRate : ℚ
deriving DecidableEq

/-- Modelled from the spec: rational stand-in for `exp x` at `x ≤ 0`,
monotone and in (0, 1], used for the uphill acceptance probability. -/
def expSurrogate (x : ℚ) : ℚ := 1 / (1 - x)

/-- Modelled from the spec: propose a neighbor by randomly perturbing one
piece's placement or swapping two pieces' placements. -/
def saPropose (arr : Arrangement) (r : Nat) : Arrangement :=
  if r % 2 = 0 then perturbAt arr ((lcgNext r) % arr.length) (lcgNext (lcgNext r))
  else swapPlacements arr ((lcgNext r) % arr.length) ((lcgNext (lcgNext r)) % arr.length)

/-- Modelled from the spec: the acceptance rule — accept an improving
neighbor outright, an uphill one with probability `exp(-d/temperature)`
(the uniform draw comes from the seed). -/
def saAccept (pieces : List PieceDescriptor) (temperature : ℚ) (arr neighbor : Arrangement)
    (r : Nat) : Arrangement :=
  if arrangementCost defaultWeights pieces neighbor
      < arrangementCost defaultWeights pieces arr then neighbor
  else if ((r % 1000 : Nat) : ℚ) / 1000
      < expSurrogate (-(arrangementCost defaultWeights pieces neighbor
          - arrangementCost defaultWeights pieces arr) / temperature) then neighbor
  else arr

/-- State of one annealing run. -/
structure SAState where
  current : Arrangement
  best : Arrangement
  temperature : ℚ
  rng : Nat
deriving DecidableEq

/-- Modelled from the spec: one annealing step — propose, accept or
reject, cool geometrically, and track the best arrangement seen. -/
def saStep (cfg : SAConfig) (pieces : List PieceDescriptor) (st : SAState) : SAState :=
  ⟨saAccept pieces st.temperature st.current (saPropose st.current st.rng) st.rng,
   betterOf pieces
     (saAccept pieces st.temperature st.current (saPropose st.current st.rng) st.rng)
     st.best,
   st.temperature * cfg.coolingRate,
   lcgNext st.rng⟩

/-- Modelled from the spec: the temperature floor below which annealing
terminates. -/
def temperatureFloor : ℚ := 1/1000

/-- Modelled from the spec: the annealing loop — step until the
temperature floor or the iteration budget, reporting the best arrangement
after every step. -/
def runSAAux (cfg : SAConfig) (pieces : List PieceDescriptor) :
    Nat → SAState → List Arrangement
  | 0, _ => []
  | n + 1, st =>
    if st.temperature < temperatureFloor then []
    else (saStep cfg pieces st).best :: runSAAux cfg pieces n (saStep cfg pieces st)

/-- The annealing strategy: the initial arrangement followed by every
intermediate best. -/
def runSA (cfg : SAConfig) (pieces : List PieceDescriptor) (maxIter seed : Nat) :
    List Arrangement :=
  initializeArrangement pieces ::
    runSAAux cfg pieces maxIter
      ⟨initializeArrangement pieces, initializeArrangement pieces,
        cfg.initialTemperature, seed⟩

theorem keysOf_saPropose (arr : Arrangement) (r : Nat) :
    keysOf (saPropose arr r) = keysOf arr := by
  unfold saPropose
  split
  · rw [keysOf_perturbAt]
  · rw [keysOf_swapPlacements]

theorem saAccept_eq_or (pieces : List PieceDescriptor) (T : ℚ) (arr neighbor : Arrangement)
    (r : Nat) : saAccept pieces T arr neighbor r = neighbor
      ∨ saAccept pieces T arr neighbor r = arr := by
  unfold saAccept
  split
  · exact Or.inl rfl
  · split
    · exact Or.inl rfl
    · exact Or.inr rfl

theorem saStep_current_keys (cfg : SAConfig) (pieces : List PieceDescriptor) (st : SAState) :
    keysOf (saStep cfg pieces st).current = keysOf st.current := by
  show keysOf (saAccept pieces st.temperature st.current (saPropose st.current st.rng) st.rng)
      = keysOf st.current
  rcases saAccept_eq_or pieces st.temperature st.current (saPropose st.current st.rng) st.rng
    with h | h
  · rw [h, keysOf_saPropose]
  · rw [h]

theorem saStep_best_keys (cfg : SAConfig) (pieces : List PieceDescriptor) (st : SAState)
    (ids : List String) (hc : List.Perm (keysOf st.current) ids) (hb : List.Perm (keysOf st.best) ids) :
    List.Perm (keysOf (saStep cfg pieces st).best) ids := by
  have hcur : List.Perm (keysOf (saStep cfg pieces st).current) ids := by
    rw [saStep_current_keys]; exact hc
  rcases betterOf_eq_or pieces (saStep cfg pieces st).current st.best with h | h
  · show List.Perm (keysOf (betterOf pieces (saStep cfg pieces st).current st.best)) ids
    rw [h]; exact hcur
  · show List.Perm (keysOf (betterOf pieces (saStep cfg pieces st).current st.best)) ids
    rw [h]; exact hb

theorem runSAAux_keys (cfg : SAConfig) (pieces : List PieceDescriptor) (ids : List String) :
    ∀ (n : Nat) (st : SAState), List.Perm (keysOf st.current) ids → List.Perm (keysOf st.best) ids →
      ∀ a ∈ runSAAux cfg pieces n st, List.Perm (keysOf a) ids := by
  intro n
  induction n with
  | zero => intro st _ _ a ha; simp [runSAAux] at ha
  | succ n ih =>
    intro st hc hb a ha
    rw [runSAAux] at ha
    split at ha
    · simp at ha
    · have hcur : List.Perm (keysOf (saStep cfg pieces st).current) ids := by
        rw [saStep_current_keys]; exact hc
      have hbest : List.Perm (keysOf (saStep cfg pieces st).best) ids :=
        saStep_best_keys cfg pieces st ids hc hb
      rcases List.mem_cons.mp ha with h | h
      · rw [h]; exact hbest
      · exact ih (saStep cfg pieces st) hcur hbest a h

theorem runSA_keys (cfg : SAConfig) (pieces : List PieceDescriptor) (maxIter seed : Nat) :
    ∀ a ∈ runSA cfg pieces maxIter seed, List.Perm (keysOf a) (pieces.map (fun p => p.id)) := by
  intro a ha
  have hinit : List.Perm (keysOf (initializeArrangement pieces)) (pieces.map (fun p => p.id)) := by
    rw [keysOf_initializeArrangement]
  rcases List.mem_cons.mp ha with h | h
  · rw [h]; exact hinit
  · exact runSAAux_keys cfg pieces (pieces.map (fun p => p.id)) maxIter _ hinit hinit a h

/-! ### Genetic algorithm (§4.2.1) -/

/-- Configuration of the genetic strategy. -/
structure GAConfig where
  populationSize : Nat
  mutationRate : ℚ
  eliteFraction : ℚ
  patience : Nat
deriving DecidableEq

/-- Modelled from the spec: fitness `1 / (1 + cost)`. -/
def fitness (pieces : List PieceDescriptor) (a : Arrangement) : ℚ :=
  1 / (1 + arrangementCost defaultWeights pieces a)

/-- Randomize every placement of an arrangement (spreads the initial
population). -/
def randomizeArr : Arrangement → Nat → Arrangement
  | [], _ => []
  | kv :: rest, r => (kv.1, perturbPlacement r kv.2) :: randomizeArr rest (lcgNext r)

/-- Modelled from the spec: the initial population — `populationSize`
randomized copies of the deterministic initial arrangement. -/
def initPopulation (pieces : List PieceDescriptor) : Nat → Nat → List Arrangement
  | 0, _ => []
  | n + 1, r =>
    randomizeArr (initializeArrangement pieces) r
      :: initPopulation pieces n (lcgNext r)

/-- Insert an arrangement into a cost-sorted list. -/
def insertByCost (pieces : List PieceDescriptor) (a : Arrangement) :
    List Arrangement → List Arrangement
  | [] => [a]
  | b :: rest =>
    if arrangementCost defaultWeights pieces a ≤ arrangementCost defaultWeights pieces b
    then a :: b :: rest
    else b :: insertByCost pieces a rest

/-- Sort a population by ascending cost (insertion sort). -/
def sortByCost (pieces : List PieceDescriptor) (pop : List Arrangement) :
    List Arrangement :=
  pop.foldr (insertByCost pieces) []

/-- Fitness-proportional walk: consume the threshold until it drops below
an entry's fitness. -/
def rouletteWalk (pieces : List PieceDescriptor) :
    List Arrangement → ℚ → Arrangement → Arrangement
  | [], _, last => last
  | a :: rest, t, _ =>
    if t ≤ fitness pieces a then a
    else rouletteWalk pieces rest (t - fitness pieces a) a

/-- Modelled from the spec: fitness-proportional (roulette) parent
selection, the threshold drawn from the seed. -/
def pickParent (pieces : List PieceDescriptor) (pop : List Arrangement) (r : Nat) :
    Arrangement :=
  match pop with
  | [] => []
  | a :: rest =>
    rouletteWalk pieces (a :: rest)
      (((r % 1000 : Nat) : ℚ) / 1000 * ((a :: rest).map (fitness pieces)).sum) a

/-- Modelled from the spec: uniform crossover — for each piece id the
child takes that id's placement from one of the two parents, chosen by a
coin from the seed. -/
def crossoverArr : Arrangement → Arrangement → Nat → Arrangement
  | [], _, _ => []
  | kv :: rest, p2, r =>
    (kv.1, if r % 2 = 0 then kv.2 else ((p2.lookup kv.1).getD kv.2))
      :: crossoverArr rest p2 (lcgNext r)

/-- Modelled from the spec: per-piece mutation — with probability
`mutation_rate` either perturb the piece's placement (bounded jitter) or
swap it with a random piece. -/
def mutateAux (rate : ℚ) : Nat → Arrangement → Nat → Arrangement
  | 0, arr, _ => arr
  | i + 1, arr, r =>
    if ((r % 1000 : Nat) : ℚ) / 1000 < rate then
      if (lcgNext r) % 2 = 0 then
        mutateAux rate i (perturbAt arr i (lcgNext (lcgNext r)))
          (lcgNext (lcgNext (lcgNext r)))
      else
        mutateAux rate i (swapPlacements arr i ((lcgNext (lcgNext r)) % arr.length))
          (lcgNext (lcgNext (lcgNext r)))
    else mutateAux rate i arr (lcgNext r)

/-- Mutate an arrangement, visiting each piece position once. -/
def mutateArr (rate : ℚ) (arr : Arrangement) (r : Nat) : Arrangement :=
  mutateAux rate arr.length arr r

/-- One offspring: mutated uniform crossover of two roulette-selected
parents. -/
def makeChild (cfg : GAConfig) (pieces : List PieceDescriptor)
    (pop : List Arrangement) (r : Nat) : Arrangement :=
  mutateArr cfg.mutationRate
    (crossoverArr (pickParent pieces pop r) (pickParent pieces pop (lcgNext r))
      (lcgNext (lcgNext r)))
    (lcgNext (lcgNext (lcgNext r)))

/-- Produce `n` offspring from a (sorted) population. -/
def makeOffspring (cfg : GAConfig) (pieces : List PieceDescriptor)
    (pop : List Arrangement) : Nat → Nat → List Arrangement
  | 0, _ => []
  | n + 1, r => makeChild cfg pieces pop r :: makeOffspring cfg pieces pop n (lcgNext r)

/-- Modelled from the spec: the number of elite individuals carried over
unchanged — the elite fraction of the population, at least one. -/
def eliteCount (cfg : GAConfig) (popLength : Nat) : Nat :=
  min popLength (max 1 (cfg.eliteFraction * (cfg.populationSize : ℚ)).floor.toNat)

/-- Modelled from the spec: one GA generation — sort by cost, carry the
elite over unchanged, fill the remaining slots with offspring. -/
def gaStep (cfg : GAConfig) (pieces : List PieceDescriptor)
    (pop : List Arrangement) (r : Nat) : List Arrangement :=
  (sortByCost pieces pop).take (eliteCount cfg pop.length)
    ++ makeOffspring cfg pieces (sortByCost pieces pop)
        (pop.length - eliteCount cfg pop.length) r

/-- The cheapest member of a population (or the fallback). -/
def bestOf (pieces : List PieceDescriptor) (pop : List Arrangement)
    (dflt : Arrangement) : Arrangement :=
  (sortByCost pieces pop).headD dflt

/-- State of one GA run. -/
structure GAState where
  population : List Arrangement
  best : Arrangement
  sinceImprovement : Nat
  rng : Nat
deriving DecidableEq

/-- Modelled from the spec: the GA loop — step generations until the
budget or the patience window is exhausted, reporting the best-so-far
after every generation. -/
def runGAAux (cfg : GAConfig) (pieces : List PieceDescriptor) :
    Nat → GAState → List Arrangement
  | 0, _ => []
  | n + 1, st =>
    if cfg.patience < st.sinceImprovement then []
    else
      betterOf pieces
          (bestOf pieces (gaStep cfg pieces st.population st.rng) st.best) st.best
        :: runGAAux cfg pieces n
          ⟨gaStep cfg pieces st.population st.rng,
           betterOf pieces
             (bestOf pieces (gaStep cfg pieces st.population st.rng) st.best) st.best,
           if arrangementCost defaultWeights pieces
                 (betterOf pieces
                   (bestOf pieces (gaStep cfg pieces st.population st.rng) st.best) st.best)
               < arrangementCost defaultWeights pieces st.best
           then 0 else st.sinceImprovement + 1,
           lcgNext st.rng⟩

/-- The genetic strategy: the initial best followed by every intermediate
best. -/
def runGA (cfg : GAConfig) (pieces : List PieceDescriptor) (maxIter seed : Nat) :
    List Arrangement :=
  bestOf pieces (initPopulation pieces cfg.populationSize seed)
      (initializeArrangement pieces)
    :: runGAAux cfg pieces maxIter
      ⟨initPopulation pieces cfg.populationSize seed,
       bestOf pieces (initPopulation pieces cfg.populationSize seed)
         (initializeArrangement pieces),
       0, lcgNext seed⟩

theorem keysOf_randomizeArr : ∀ (arr : Arrangement) (r : Nat),
    keysOf (randomizeArr arr r) = keysOf arr
  | [], _ => rfl
  | kv :: rest, r => by
    show kv.1 :: keysOf (randomizeArr rest (lcgNext r)) = kv.1 :: keysOf rest
    rw [keysOf_randomizeArr rest (lcgNext r)]

theorem initPopulation_keys (pieces : List PieceDescriptor) :
    ∀ (n r : Nat), ∀ a ∈ initPopulation pieces n r,
      keysOf a = pieces.map (fun p => p.id) := by
  intro n
  induction n with
  | zero => intro r a ha; simp [initPopulation] at ha
  | succ n ih =>
    intro r a ha
    rw [initPopulation] at ha
    rcases List.mem_cons.mp ha with h | h
    · rw [h, keysOf_randomizeArr, keysOf_initializeArrangement]
    · exact ih (lcgNext r) a h

theorem initPopulation_length (pieces : List PieceDescriptor) :
    ∀ (n r : Nat), (initPopulation pieces n r).length = n
  | 0, _ => rfl
  | n + 1, r => by
    show (initPopulation pieces n (lcgNext r)).length + 1 = n + 1
    rw [initPopulation_length pieces n (lcgNext r)]

theorem insertByCost_perm (pieces : List PieceDescriptor) (a : Arrangement) :
    ∀ l : List Arrangement, List.Perm (insertByCost pieces a l) (a :: l)
  | [] => List.Perm.refl _
  | b :: rest => by
    unfold insertByCost
    split
    · exact List.Perm.refl _
    · exact ((insertByCost_perm pieces a rest).cons b).trans (List.Perm.swap a b rest)

theorem sortByCost_perm (pieces : List PieceDescriptor) :
    ∀ pop : List Arrangement, List.Perm (sortByCost pieces pop) pop
  | [] => List.Perm.refl _
  | x :: xs => by
    show List.Perm (insertByCost pieces x (sortByCost pieces xs)) (x :: xs)
    exact (insertByCost_perm pieces x (sortByCost pieces xs)).trans
      ((sortByCost_perm pieces xs).cons x)

theorem mem_sortByCost (pieces : List PieceDescriptor) (pop : List Arrangement)
    (a : Arrangement) : a ∈ sortByCost pieces pop ↔ a ∈ pop :=
  (sortByCost_perm pieces pop).mem_iff

theorem sortByCost_length (pieces : List PieceDescriptor) (pop : List Arrangement) :
    (sortByCost pieces pop).length = pop.length :=
  (sortByCost_perm pieces pop).length_eq

theorem rouletteWalk_mem (pieces : List PieceDescriptor) :
    ∀ (l : List Arrangement) (t : ℚ) (last : Arrangement),
      rouletteWalk pieces l t last ∈ l ∨ rouletteWalk pieces l t last = last
  | [], _, _ => Or.inr rfl
  | a :: rest, t, last => by
    unfold rouletteWalk
    split
    · exact Or.inl (List.mem_cons_self a rest)
    · rcases rouletteWalk_mem pieces rest (t - fitness pieces a) a with h | h
      · exact Or.inl (List.mem_cons_of_mem a h)
      · exact Or.inl (by rw [h]; exact List.mem_cons_self a rest)

theorem pickParent_mem (pieces : List PieceDescriptor) (pop : List Arrangement) (r : Nat)
    (h : pop ≠ []) : pickParent pieces pop r ∈ pop := by
  cases pop with
  | nil => exact absurd rfl h
  | cons a rest =>
    show rouletteWalk pieces (a :: rest)
      (((r % 1000 : Nat) : ℚ) / 1000 * ((a :: rest).map (fitness pieces)).sum) a ∈ a :: rest
    rcases rouletteWalk_mem pieces (a :: rest)
        (((r % 1000 : Nat) : ℚ) / 1000 * ((a :: rest).map (fitness pieces)).sum) a with hm | hm
    · exact hm
    · rw [hm]; exact List.mem_cons_self a rest

theorem keysOf_crossoverArr : ∀ (p1 p2 : Arrangement) (r : Nat),
    keysOf (crossoverArr p1 p2 r) = keysOf p1
  | [], _, _ => rfl
  | kv :: rest, p2, r => by
    show kv.1 :: keysOf (crossoverArr rest p2 (lcgNext r)) = kv.1 :: keysOf rest
    rw [keysOf_crossoverArr rest p2 (lcgNext r)]

theorem keysOf_mutateAux (rate : ℚ) : ∀ (i : Nat) (arr : Arrangement) (r : Nat),
    keysOf (mutateAux rate i arr r) = keysOf arr
  | 0, _, _ => rfl
  | i + 1, arr, r => by
    rw [mutateAux]
    split
    · split
      · rw [keysOf_mutateAux rate i _ _, keysOf_perturbAt]
      · rw [keysOf_mutateAux rate i _ _, keysOf_swapPlacements]
    · rw [keysOf_mutateAux rate i arr (lcgNext r)]

theorem keysOf_makeChild (cfg : GAConfig) (pieces : List PieceDescriptor)
    (pop : List Arrangement) (r : Nat) :
    keysOf (makeChild cfg pieces pop r) = keysOf (pickParent pieces pop r) := by
  unfold makeChild mutateArr
  rw [keysOf_mutateAux, keysOf_crossoverArr]

theorem makeOffspring_keys (cfg : GAConfig) (pieces : List PieceDescriptor)
    (pop : List Arrangement) (ids : List String) (hpop : pop ≠ [])
    (hall : ∀ b ∈ pop, List.Perm (keysOf b) ids) :
    ∀ (n r : Nat), ∀ a ∈ makeOffspring cfg pieces pop n r, List.Perm (keysOf a) ids := by
  intro n
  induction n with
  | zero => intro r a ha; simp [makeOffspring] at ha
  | succ n ih =>
    intro r a ha
    rw [makeOffspring] at ha
    rcases List.mem_cons.mp ha with h | h
    · rw [h, keysOf_makeChild]
      exact hall _ (pickParent_mem pieces pop r hpop)
    · exact ih (lcgNext r) a h

theorem makeOffspring_length (cfg : GAConfig) (pieces : List PieceDescriptor)
    (pop : List Arrangement) : ∀ (n r : Nat), (makeOffspring cfg pieces pop n r).length = n
  | 0, _ => rfl
  | n + 1, r => by
    show (makeOffspring cfg pieces pop n (lcgNext r)).length + 1 = n + 1
    rw [makeOffspring_length cfg pieces pop n (lcgNext r)]

theorem gaStep_keys (cfg : GAConfig) (pieces : List PieceDescriptor)
    (pop : List Arrangement) (r : Nat) (ids : List String) (hpop : pop ≠ [])
    (hall : ∀ b ∈ pop, List.Perm (keysOf b) ids) :
    ∀ a ∈ gaStep cfg pieces pop r, List.Perm (keysOf a) ids := by
  intro a ha
  have hsorted : ∀ b ∈ sortByCost pieces pop, List.Perm (keysOf b) ids := by
    intro b hb; exact hall b ((mem_sortByCost pieces pop b).1 hb)
  have hsne : sortByCost pieces pop ≠ [] := by
    intro he
    apply hpop
    have := sortByCost_length pieces pop
    rw [he] at this
    exact List.length_eq_zero.mp this.symm
  rcases List.mem_append.mp ha with h | h
  · exact hsorted a (List.take_subset _ _ h)
  · exact makeOffspring_keys cfg pieces (sortByCost pieces pop) ids hsne hsorted _ r a h

theorem gaStep_length (cfg : GAConfig) (pieces : List PieceDescriptor)
    (pop : List Arrangement) (r : Nat) :
    (gaStep cfg pieces pop r).length = pop.length := by
  unfold gaStep
  rw [List.length_append, List.length_take, makeOffspring_length, sortByCost_length]
  have hle : eliteCount cfg pop.length ≤ pop.length := min_le_left _ _
  rw [min_eq_left hle]
  exact Nat.add_sub_cancel' hle

theorem bestOf_mem_or (pieces : List PieceDescriptor) (pop : List Arrangement)
    (dflt : Arrangement) : bestOf pieces pop dflt ∈ pop ∨ bestOf pieces pop dflt = dflt := by
  unfold bestOf
  cases hs : sortByCost pieces pop with
  | nil => exact Or.inr rfl
  | cons h t =>
    refine Or.inl ?_
    have : h ∈ sortByCost pieces pop := by rw [hs]; exact List.mem_cons_self h t
    exact (mem_sortByCost pieces pop h).1 this

theorem runGAAux_keys (cfg : GAConfig) (pieces : List PieceDescriptor) (ids : List String) :
    ∀ (n : Nat) (st : GAState), st.population ≠ [] →
      (∀ b ∈ st.population, List.Perm (keysOf b) ids) →
      List.Perm (keysOf st.best) ids →
      ∀ a ∈ runGAAux cfg pieces n st, List.Perm (keysOf a) ids := by
  intro n
  induction n with
  | zero => intro st _ _ _ a ha; simp [runGAAux] at ha
  | succ n ih =>
    intro st hne hall hbest a ha
    rw [runGAAux] at ha
    split at ha
    · simp at ha
    · have hnewall : ∀ b ∈ gaStep cfg pieces st.population st.rng,
          List.Perm (keysOf b) ids :=
        gaStep_keys cfg pieces st.population st.rng ids hne hall
      have hnewne : gaStep cfg pieces st.population st.rng ≠ [] := by
        intro he
        apply hne
        have := gaStep_length cfg pieces st.population st.rng
        rw [he] at this
        exact List.length_eq_zero.mp this.symm
      have hreport : List.Perm (keysOf (betterOf pieces
          (bestOf pieces (gaStep cfg pieces st.population st.rng) st.best) st.best)) ids := by
        rcases betterOf_eq_or pieces
            (bestOf pieces (gaStep cfg pieces st.population st.rng) st.best) st.best
          with h | h
        · rw [h]
          rcases bestOf_mem_or pieces (gaStep cfg pieces st.population st.rng) st.best
            with hm | hm
          · exact hnewall _ hm
          · rw [hm]; exact hbest
        · rw [h]; exact hbest
      rcases List.mem_cons.mp ha with h | h
      · rw [h]; exact hreport
      · exact ih _ hnewne hnewall hreport a h

theorem runGA_keys (cfg : GAConfig) (pieces : List PieceDescriptor) (maxIter seed : Nat)
    (hpop : 0 < cfg.populationSize) :
    ∀ a ∈ runGA cfg pieces maxIter seed,
      List.Perm (keysOf a) (pieces.map (fun p => p.id)) := by
  intro a ha
  have hlen := initPopulation_length pieces cfg.populationSize seed
  have hne : initPopulation pieces cfg.populationSize seed ≠ [] := by
    intro he
    rw [he] at hlen
    exact absurd hlen.symm (Nat.ne_of_gt hpop)
  have hall : ∀ b ∈ initPopulation pieces cfg.populationSize seed,
      List.Perm (keysOf b) (pieces.map (fun p => p.id)) := by
    intro b hb
    rw [initPopulation_keys pieces cfg.populationSize seed b hb]
  have hbest : List.Perm (keysOf (bestOf pieces
      (initPopulation pieces cfg.populationSize seed) (initializeArrangement pieces)))
      (pieces.map (fun p => p.id)) := by
    rcases bestOf_mem_or pieces (initPopulation pieces cfg.populationSize seed)
        (initializeArrangement pieces) with hm | hm
    · exact hall _ hm
    · rw [hm, keysOf_initializeArrangement]
  rcases List.mem_cons.mp ha with h | h
  · rw [h]; exact hbest
  · exact runGAAux_keys cfg pieces (pieces.map (fun p => p.id)) maxIter _ hne hall hbest a h

/-! ### Reinforcement learning (§4.2.3) -/

/-- Configuration of the Q-learning strategy. -/
structure RLConfig where
  learningRate : ℚ
  discount : ℚ
  epsilonStart : ℚ
  epsilonDecay : ℚ
  costThreshold : ℚ
  terminalBonus : ℚ
deriving DecidableEq

/-- The tabular Q-function, keyed by (number of pieces placed, piece id)
— the discretized state — and the chosen piece. -/
abbrev QTable := List ((Nat × String) × ℚ)

/-- Look up a Q-value (zero when unseen). -/
def qValue (q : QTable) (k : Nat × String) : ℚ :=
  match q.find? (fun e => e.1.1 == k.1 && e.1.2 == k.2) with
  | some e => e.2
  | none => 0

/-- Modelled from the spec: the tabular Q-learning update
`Q(s,a) += learning_rate * (reward + discount * max Q(s',a') - Q(s,a))`. -/
def qUpdate (cfg : RLConfig) (q : QTable) (k : Nat × String) (reward nextBest : ℚ) :
    QTable :=
  (k, qValue q k + cfg.learningRate * (reward + cfg.discount * nextBest - qValue q k)) :: q

/-- Best Q-value over the candidate next pieces. -/
def maxQNext (q : QTable) (count : Nat) (unplaced : List PieceDescriptor) : ℚ :=
  (unplaced.map (fun p => qValue q (count, p.id))).foldr max 0

/-- A unit offset along one axis, selecting a cell adjacent to the last
placed piece. -/
def adjacentOffset (d : Nat) : ℚ × ℚ × ℚ :=
  match d % 6 with
  | 0 => (1, 0, 0)
  | 1 => (-1, 0, 0)
  | 2 => (0, 1, 0)
  | 3 => (0, -1, 0)
  | 4 => (0, 0, 1)
  | _ => (0, 0, -1)

/-- Modelled from the spec: a discretized placement adjacent to the last
placed piece, with rotation in 90-degree steps. -/
def discretizedPlacement (lastP : Placement) (r : Nat) : Placement :=
  ⟨(lastP.pos.1 + (adjacentOffset r).1,
    lastP.pos.2.1 + (adjacentOffset r).2.1,
    lastP.pos.2.2 + (adjacentOffset r).2.2),
   (0, ((lcgNext r % 4 : Nat) : ℚ) * 90, 0)⟩

/-- Index of the best Q-value among the remaining pieces. -/
def argmaxQAux (q : QTable) (count : Nat) :
    List PieceDescriptor → Nat → Nat × ℚ → Nat
  | [], _, acc => acc.1
  | p :: rest, i, acc =>
    if acc.2 < qValue q (count, p.id) then
      argmaxQAux q count rest (i + 1) (i, qValue q (count, p.id))
    else argmaxQAux q count rest (i + 1) acc

/-- Modelled from the spec: epsilon-greedy choice of the next piece —
explore a random index with probability epsilon, otherwise exploit the
best Q-value. -/
def chooseIndex (q : QTable) (count : Nat) (unplaced : List PieceDescriptor)
    (eps : ℚ) (r : Nat) : Nat :=
  if ((r % 1000 : Nat) : ℚ) / 1000 < eps then (lcgNext r) % unplaced.length
  else
    match unplaced with
    | [] => 0
    | p0 :: rest => argmaxQAux q count rest 1 (0, qValue q (count, p0.id))

/-- Modelled from the spec: one Q-learning episode — at each step choose
the next unplaced piece epsilon-greedily, place it at a discretized
position adjacent to the last placement, reward the negative marginal
cost (plus a terminal bonus for a complete placement under the cost
threshold) and update the Q-table.  The fuel argument equals the number
of unplaced pieces at the outermost call. -/
def rlEpisodeAux (cfg : RLConfig) (pieces : List PieceDescriptor) (eps : ℚ) :
    Nat → List PieceDescriptor → Arrangement → Placement → QTable → Nat →
      Arrangement × QTable
  | 0, _, placed, _, q, _ => (placed.reverse, q)
  | _ + 1, [], placed, _, q, _ => (placed.reverse, q)
  | fuel + 1, u0 :: urest, placed, lastP, q, r =>
    let unplaced := u0 :: urest
    let idx := chooseIndex q placed.length unplaced eps r % unplaced.length
    let piece := unplaced.getD idx u0
    let place := discretizedPlacement lastP (lcgNext (lcgNext r))
    let newPlaced := (piece.id, place) :: placed
    let rest := unplaced.eraseIdx idx
    let reward :=
      -(arrangementCost defaultWeights pieces newPlaced
          - arrangementCost defaultWeights pieces placed)
        + (if rest.isEmpty
              && decide (arrangementCost defaultWeights pieces newPlaced
                < cfg.costThreshold)
           then cfg.terminalBonus else 0)
    rlEpisodeAux cfg pieces eps fuel rest newPlaced place
      (qUpdate cfg q (placed.length, piece.id) reward
        (maxQNext q (placed.length + 1) rest))
      (lcgNext (lcgNext (lcgNext r)))

/-- State of one Q-learning run. -/
structure RLState where
  qtable : QTable
  best : Arrangement
  epsilon : ℚ
  rng : Nat
deriving DecidableEq

/-- Modelled from the spec: the Q-learning loop — one full-placement
episode per iteration with decaying epsilon, retaining the best-scoring
episode. -/
def runRLAux (cfg : RLConfig) (pieces : List PieceDescriptor) :
    Nat → RLState → List Arrangement
  | 0, _ => []
  | n + 1, st =>
    betterOf pieces
        (rlEpisodeAux cfg pieces st.epsilon pieces.length pieces [] ⟨(0, 0, 0), (0, 0, 0)⟩
          st.qtable st.rng).1 st.best
      :: runRLAux cfg pieces n
        ⟨(rlEpisodeAux cfg pieces st.epsilon pieces.length pieces [] ⟨(0, 0, 0), (0, 0, 0)⟩
            st.qtable st.rng).2,
         betterOf pieces
           (rlEpisodeAux cfg pieces st.epsilon pieces.length pieces [] ⟨(0, 0, 0), (0, 0, 0)⟩
             st.qtable st.rng).1 st.best,
         st.epsilon * cfg.epsilonDecay,
         lcgNext st.rng⟩

/-- The Q-learning strategy: the initial arrangement followed by every
intermediate best. -/
def runRL (cfg : RLConfig) (pieces : List PieceDescriptor) (maxIter seed : Nat) :
    List Arrangement :=
  initializeArrangement pieces
    :: runRLAux cfg pieces maxIter ⟨[], initializeArrangement pieces, cfg.epsilonStart, seed⟩

theorem perm_get_cons_eraseIdx : ∀ (l : List PieceDescriptor) (i : Nat) (h : i < l.length),
    List.Perm (l.get ⟨i, h⟩ :: l.eraseIdx i) l
  | a :: rest, 0, _ => by simp [List.eraseIdx]
  | a :: rest, i + 1, h => by
    have ih := perm_get_cons_eraseIdx rest i (Nat.lt_of_succ_lt_succ h)
    show List.Perm (rest.get ⟨i, _⟩ :: a :: rest.eraseIdx i) (a :: rest)
    exact (List.Perm.swap a (rest.get ⟨i, _⟩) (rest.eraseIdx i)).trans (ih.cons a)

theorem getD_eq_get_of_lt : ∀ (l : List PieceDescriptor) (i : Nat) (d : PieceDescriptor)
    (h : i < l.length), l.getD i d = l.get ⟨i, h⟩
  | _ :: _, 0, _, _ => rfl
  | _ :: rest, i + 1, d, h => getD_eq_get_of_lt rest i d (Nat.lt_of_succ_lt_succ h)

theorem perm_eraseIdx_step (l : List PieceDescriptor) (i : Nat) (h : i < l.length)
    (d : PieceDescriptor) (tail : List String) :
    List.Perm ((l.eraseIdx i).map (fun p => p.id) ++ ((l.getD i d).id :: tail))
      (l.map (fun p => p.id) ++ tail) := by
  refine List.Perm.trans List.perm_middle ?_
  show List.Perm (((l.getD i d).id :: (l.eraseIdx i).map (fun p => p.id)) ++ tail) _
  refine List.Perm.append_right tail ?_
  rw [getD_eq_get_of_lt l i d h]
  have hm := (perm_get_cons_eraseIdx l i h).map (fun p => p.id)
  simpa using hm

theorem rlEpisodeAux_keys (cfg : RLConfig) (pieces : List PieceDescriptor) (eps : ℚ) :
    ∀ (fuel : Nat) (unplaced : List PieceDescriptor) (placed : Arrangement)
      (lastP : Placement) (q : QTable) (r : Nat), unplaced.length ≤ fuel →
      List.Perm (keysOf (rlEpisodeAux cfg pieces eps fuel unplaced placed lastP q r).1)
        (unplaced.map (fun p => p.id) ++ keysOf placed) := by
  intro fuel
  induction fuel with
  | zero =>
    intro unplaced placed lastP q r hlen
    have he : unplaced = [] := List.length_eq_zero.mp (Nat.le_zero.mp hlen)
    subst he
    show List.Perm (keysOf placed.reverse) ([] ++ keysOf placed)
    rw [List.nil_append]
    unfold keysOf
    rw [List.map_reverse]
    exact List.reverse_perm _
  | succ fuel ih =>
    intro unplaced placed lastP q r hlen
    cases unplaced with
    | nil =>
      show List.Perm (keysOf placed.reverse) ([] ++ keysOf placed)
      rw [List.nil_append]
      unfold keysOf
      rw [List.map_reverse]
      exact List.reverse_perm _
    | cons u0 urest =>
      simp only [rlEpisodeAux]
      have hpos : 0 < (u0 :: urest).length := Nat.succ_pos _
      have hidx : chooseIndex q placed.length (u0 :: urest) eps r % (u0 :: urest).length
          < (u0 :: urest).length := Nat.mod_lt _ hpos
      refine List.Perm.trans (ih _ _ _ _ _ ?_) ?_
      · rw [List.length_eraseIdx, if_pos hidx]
        have : (u0 :: urest).length ≤ fuel + 1 := hlen
        omega
      · exact perm_eraseIdx_step (u0 :: urest) _ hidx u0 (keysOf placed)

theorem runRLAux_keys (cfg : RLConfig) (pieces : List PieceDescriptor) (ids : List String)
    (hids : ids = pieces.map (fun p => p.id)) :
    ∀ (n : Nat) (st : RLState), List.Perm (keysOf st.best) ids →
      ∀ a ∈ runRLAux cfg pieces n st, List.Perm (keysOf a) ids := by
  intro n
  induction n with
  | zero => intro st _ a ha; simp [runRLAux] at ha
  | succ n ih =>
    intro st hbest a ha
    rw [runRLAux] at ha
    have hep : List.Perm (keysOf (rlEpisodeAux cfg pieces st.epsilon pieces.length pieces []
        ⟨(0, 0, 0), (0, 0, 0)⟩ st.qtable st.rng).1) ids := by
      have h0 := rlEpisodeAux_keys cfg pieces st.epsilon pieces.length pieces []
        ⟨(0, 0, 0), (0, 0, 0)⟩ st.qtable st.rng (le_refl _)
      rw [hids]
      simpa [keysOf] using h0
    have hreport : List.Perm (keysOf (betterOf pieces
        (rlEpisodeAux cfg pieces st.epsilon pieces.length pieces []
          ⟨(0, 0, 0), (0, 0, 0)⟩ st.qtable st.rng).1 st.best)) ids := by
      rcases betterOf_eq_or pieces
          (rlEpisodeAux cfg pieces st.epsilon pieces.length pieces []
            ⟨(0, 0, 0), (0, 0, 0)⟩ st.qtable st.rng).1 st.best with h | h
      · rw [h]; exact hep
      · rw [h]; exact hbest
    rcases List.mem_cons.mp ha with h | h
    · rw [h]; exact hreport
    · exact ih _ hreport a h

theorem runRL_keys (cfg : RLConfig) (pieces : List PieceDescriptor) (maxIter seed : Nat) :
    ∀ a ∈ runRL cfg pieces maxIter seed,
      List.Perm (keysOf a) (pieces.map (fun p => p.id)) := by
  intro a ha
  have hinit : List.Perm (keysOf (initializeArrangement pieces))
      (pieces.map (fun p => p.id)) := by
    rw [keysOf_initializeArrangement]
  rcases List.mem_cons.mp ha with h | h
  · rw [h]; exact hinit
  · exact runRLAux_keys cfg pieces (pieces.map (fun p => p.id)) rfl maxIter _ hinit a h

/-- Claim C2: every arrangement reported by any of the three strategies —
the initial one and every intermediate best — assigns placements to
exactly the input piece ids: each input id appears exactly once, with no
extra and no missing keys. -/
theorem placement_completeness (pieces : List PieceDescriptor)
    (gcfg : GAConfig) (scfg : SAConfig) (rcfg : RLConfig) (maxIter seed : Nat)
    (hpop : 0 < gcfg.populationSize) :
    (∀ a ∈ runGA gcfg pieces maxIter seed,
      List.Perm (keysOf a) (pieces.map (fun p => p.id)))
    ∧ (∀ a ∈ runSA scfg pieces maxIter seed,
      List.Perm (keysOf a) (pieces.map (fun p => p.id)))
    ∧ (∀ a ∈ runRL rcfg pieces maxIter seed,
      List.Perm (keysOf a) (pieces.map (fun p => p.id))) :=
  ⟨runGA_keys gcfg pieces maxIter seed hpop,
   runSA_keys scfg pieces maxIter seed,
   runRL_keys rcfg pieces maxIter seed⟩

/-- Witness for claim C2 at a concrete two-piece input. -/
theorem placement_completeness_witness :
    List.Perm
      (keysOf (initializeArrangement
        [⟨"a", (1, 1, 1), [], ⟨1, 1, 1, 0⟩, none⟩, ⟨"b", (1, 1, 1), [], ⟨1, 1, 1, 0⟩, none⟩]))
      (([⟨"a", (1, 1, 1), [], ⟨1, 1, 1, 0⟩, none⟩,
         ⟨"b", (1, 1, 1), [], ⟨1, 1, 1, 0⟩, none⟩] : List PieceDescriptor).map
        (fun p => p.id)) :=
  (placement_completeness
    [⟨"a", (1, 1, 1), [], ⟨1, 1, 1, 0⟩, none⟩, ⟨"b", (1, 1, 1), [], ⟨1, 1, 1, 0⟩, none⟩]
    ⟨20, 1/10, 1/10, 10⟩ ⟨100, 95/100⟩ ⟨1/10, 9/10, 1, 1/100, 1, 10⟩ 1 1
    (by norm_num)).2.1
    (initializeArrangement
      [⟨"a", (1, 1, 1), [], ⟨1, 1, 1, 0⟩, none⟩, ⟨"b", (1, 1, 1), [], ⟨1, 1, 1, 0⟩, none⟩])
    (by simp [runSA])
